import Mathlib

/-!
Shallow embedding of the hpmaster words lambda (package main of the words
service). The definitions below are translated from the Go source:

* `Word`, `WordResults`, `WordStatistics` mirror the structs of the lambda.
* `updateWordStatistics` embeds the read-modify-write updater of the main
  words lambda (GetItem, increment in memory, UpdateItem with SET of all
  three attributes); the store value it was given at its GetItem is the
  `item` argument.
* `getRandomWords` embeds the reservoir sampler; the Go `rand.Intn (i+1)`
  draw at loop index `i` is modelled as `g i % (i+1)` for an arbitrary
  stream `g : Nat → Nat`, so every sequence of valid draws is covered.
* `getPoorPerformanceWords` embeds the query of the userId-successRatio
  index (equality on userId, ascending by successRatio, Limit = limit / 2)
  followed by the catalog-cache lookup that drops unknown words.
* `getWords` embeds the selector: weak words first, dedup by word id via
  the seen-set, random fill, truncation.
* `handleGetWordsNum` embeds the numWords handling of handleGetWords
  (empty string defaulted to "10", strconv.Atoi, non-positive rejected).
* `handleResultsLoop` embeds the POST loop of handleResults: outcomes are
  applied one at a time and the first store failure aborts with 500.

The Go `float32` success ratio is modelled as an exact rational `ℚ`; the
Go `int` counters as unbounded `Int` (their values stay tiny here).
-/

structure Word where
  word : String
  correct : String
  incorrect : List String
deriving DecidableEq, Repr

structure WordResults where
  word : String
  isCorrect : Bool
deriving DecidableEq, Repr

structure WordStatistics where
  userId : String
  word : String
  attempts : Int
  success : Int
  successRatio : ℚ
deriving DecidableEq, Repr

/-- The read-modify-write statistics updater of the main words lambda:
`item` is what its GetItem returned from the store; on a missing record it
starts from zero counters, then increments attempts, increments success iff
the outcome is correct, and recomputes the ratio from the new counters. -/
def updateWordStatistics (userId : String) (result : WordResults)
    (item : Option WordStatistics) : WordStatistics :=
  let wordStats : WordStatistics :=
    match item with
    | some ws => ws
    | none =>
        { userId := userId, word := result.word, attempts := 0, success := 0,
          successRatio := 0 }
  let attempts := wordStats.attempts + 1
  let success :=
    if result.isCorrect then wordStats.success + 1 else wordStats.success
  { wordStats with
      attempts := attempts
      success := success
      successRatio := (success : ℚ) / (attempts : ℚ) }

/-- Program counter of one concurrent caller of `updateWordStatistics`:
it has not yet issued its GetItem, or it holds the item its GetItem
returned, or it has issued its UpdateItem. -/
inductive CallerPc where
  | start : CallerPc
  | readDone : Option WordStatistics → CallerPc
  | finished : CallerPc
deriving DecidableEq

/-- Shared store plus the program counters of two concurrent calls of
`updateWordStatistics` for the same (userId, word) key. -/
structure RaceState where
  store : Option WordStatistics
  pc1 : CallerPc
  pc2 : CallerPc
deriving DecidableEq

/-- One atomic step of a caller: its GetItem (reads the store) or its
UpdateItem (the SET expression overwrites all three attributes, so the
stored record becomes exactly the record computed from the earlier read). -/
def stepCaller (u : String) (r : WordResults) (store : Option WordStatistics) :
    CallerPc → Option WordStatistics × CallerPc
  | CallerPc.start => (store, CallerPc.readDone store)
  | CallerPc.readDone item =>
      (some (updateWordStatistics u r item), CallerPc.finished)
  | CallerPc.finished => (store, CallerPc.finished)

/-- Run an interleaving of the two callers: `false` steps caller 1,
`true` steps caller 2. -/
def runSchedule (u : String) (r1 r2 : WordResults) :
    List Bool → RaceState → RaceState
  | [], st => st
  | c :: cs, st =>
    if c then
      let p := stepCaller u r2 st.store st.pc2
      runSchedule u r1 r2 cs { st with store := p.1, pc2 := p.2 }
    else
      let p := stepCaller u r1 st.store st.pc1
      runSchedule u r1 r2 cs { st with store := p.1, pc1 := p.2 }

/-- Go map lookup in `event.QueryStringParameters`: a missing key yields
the zero value `""`. -/
def lookupParam (params : List (String × String)) (k : String) : String :=
  match params.find? (fun p => p.1 == k) with
  | some p => p.2
  | none => ""

/-- Digit run of Go's strconv.Atoi: fails on any non-digit character. -/
def digitsToNat : List Char → Nat → Option Nat
  | [], acc => some acc
  | c :: cs, acc =>
      if c.isDigit then digitsToNat cs (acc * 10 + (c.toNat - 48))
      else none

/-- Model of Go's strconv.Atoi on the strings this handler can meet:
optional sign followed by a non-empty digit run. -/
def atoi (s : String) : Option Int :=
  match s.data with
  | [] => none
  | '-' :: cs =>
      match cs with
      | [] => none
      | _ => (digitsToNat cs 0).map (fun n => -(n : Int))
  | '+' :: cs =>
      match cs with
      | [] => none
      | _ => (digitsToNat cs 0).map (fun n => (n : Int))
  | cs => (digitsToNat cs 0).map (fun n => (n : Int))

/-- The numWords handling of handleGetWords in the main words lambda:
an absent or empty parameter is replaced by "10", then strconv.Atoi, and a
parse error or non-positive value is rejected with 400; all of this runs
before any store access. -/
def handleGetWordsNum (params : List (String × String)) : Except Nat Int :=
  let s0 := lookupParam params "numWords"
  let s1 := if s0 = "" then "10" else s0
  match atoi s1 with
  | none => Except.error 400
  | some n => if n ≤ 0 then Except.error 400 else Except.ok n

/-- C6. On an absent record, one application of the statistics updater
creates attempts = 1, success = 1 iff the outcome was correct, and a
success ratio of 1 or 0 accordingly. -/
theorem updateWordStatistics_absent (u : String) (r : WordResults) :
    (updateWordStatistics u r none).attempts = 1 ∧
    (updateWordStatistics u r none).success = (if r.isCorrect then 1 else 0) ∧
    (updateWordStatistics u r none).successRatio =
      (if r.isCorrect then 1 else 0) := by
  cases hr : r.isCorrect <;> simp [updateWordStatistics, hr]

/-- C5. One application of the read-modify-write updater, given the item
its read returned: attempts grows by exactly one, success by one iff the
outcome is correct, the invariant 0 ≤ success ≤ attempts is preserved, and
the stored ratio equals success / attempts of the post-update counters. -/
theorem updateWordStatistics_monotone (u : String) (r : WordResults)
    (item : Option WordStatistics)
    (hinv : 0 ≤ (item.map (fun ws => ws.success)).getD 0 ∧
            (item.map (fun ws => ws.success)).getD 0 ≤
              (item.map (fun ws => ws.attempts)).getD 0) :
    (updateWordStatistics u r item).attempts =
      (item.map (fun ws => ws.attempts)).getD 0 + 1 ∧
    (updateWordStatistics u r item).success =
      (item.map (fun ws => ws.success)).getD 0 +
        (if r.isCorrect then 1 else 0) ∧
    0 ≤ (updateWordStatistics u r item).success ∧
    (updateWordStatistics u r item).success ≤
      (updateWordStatistics u r item).attempts ∧
    (updateWordStatistics u r item).successRatio =
      ((updateWordStatistics u r item).success : ℚ) /
        ((updateWordStatistics u r item).attempts : ℚ) := by
  obtain ⟨h1, h2⟩ := hinv
  cases item with
  | none =>
      cases hr : r.isCorrect <;> simp [updateWordStatistics, hr]
  | some ws =>
      simp only [Option.map_some', Option.getD_some] at h1 h2
      cases hr : r.isCorrect <;>
        simp [updateWordStatistics, hr] <;> omega

/-- Witness for C5 at a concrete tracked record. -/
theorem updateWordStatistics_monotone_witness :
    (updateWordStatistics "u" { word := "A", isCorrect := true }
      (some { userId := "u", word := "A", attempts := 2, success := 1,
              successRatio := (1 : ℚ) / 2 })).attempts = 3 := by
  have h := updateWordStatistics_monotone "u" { word := "A", isCorrect := true }
      (some { userId := "u", word := "A", attempts := 2, success := 1,
              successRatio := (1 : ℚ) / 2 }) (by constructor <;> decide)
  rw [h.1]
  decide

/-- C1. The read-modify-write updater loses updates: with an absent record
and two concurrent correct outcomes for the same word, the interleaving
GetItem-1, GetItem-2, UpdateItem-1, UpdateItem-2 leaves attempts = 1 and
success = 1 in the store, where the claim demands attempts = 2 and
success = 2. -/
theorem updateWordStatistics_lost_update :
    ((runSchedule "u" { word := "A", isCorrect := true }
        { word := "A", isCorrect := true }
        [false, true, false, true]
        { store := none, pc1 := CallerPc.start, pc2 := CallerPc.start }).store.map
      (fun ws => (ws.attempts, ws.success))) = some (1, 1) := by
  decide

/-- C8 counterexample. A request with no numWords parameter is not rejected:
the handler silently defaults it to 10 and proceeds. -/
theorem handleGetWordsNum_missing_not_rejected :
    handleGetWordsNum [] = Except.ok 10 ∧
    ∀ c : Nat, handleGetWordsNum [] ≠ Except.error c := by
  constructor
  · rfl
  · intro c h
    exact Except.noConfusion h

/-- C8 amended. A missing or empty numWords is defaulted to 10; a present
numWords that is non-numeric or non-positive is rejected with 400 before
any store access; a present positive numWords is used exactly as given. -/
theorem handleGetWordsNum_validation (s : String) :
    handleGetWordsNum [] = Except.ok 10 ∧
    (s ≠ "" → (atoi s).getD 0 ≤ 0 →
      handleGetWordsNum [("numWords", s)] = Except.error 400) ∧
    (∀ n : Int, s ≠ "" → atoi s = some n → 0 < n →
      handleGetWordsNum [("numWords", s)] = Except.ok n) := by
  refine ⟨rfl, ?_, ?_⟩
  · intro hne hbad
    simp only [handleGetWordsNum, lookupParam, List.find?]
    have hfind : (("numWords", s).1 == "numWords") = true := rfl
    simp only [hfind, if_neg hne]
    cases hat : atoi s with
    | none => rfl
    | some n =>
        rw [hat, Option.getD_some] at hbad
        simp [hbad]
  · intro n hne hat hpos
    simp only [handleGetWordsNum, lookupParam, List.find?]
    have hfind : (("numWords", s).1 == "numWords") = true := rfl
    simp only [hfind, if_neg hne, hat]
    have : ¬ n ≤ 0 := by omega
    simp [this]

/-- Witness for C8 amended: a negative numWords is rejected with 400. -/
theorem handleGetWordsNum_validation_witness :
    handleGetWordsNum [("numWords", "-3")] = Except.error 400 :=
  (handleGetWordsNum_validation "-3").2.1 (by decide) (by decide)

/-- The reservoir loop of getRandomWords: the first `limit` words fill the
reservoir; afterwards the word at loop index `i` replaces slot
`rand.Intn (i+1)` when that draw lands below `limit`. The draw is
`g i % (i+1)` for the ambient random stream `g`. -/
def reservoirLoop (g : Nat → Nat) (limit : Nat) :
    List Word → Nat → List Word → List Word
  | [], _, acc => acc
  | w :: ws, i, acc =>
    if i < limit then
      reservoirLoop g limit ws (i + 1) (acc ++ [w])
    else if g i % (i + 1) < limit then
      reservoirLoop g limit ws (i + 1) (acc.set (g i % (i + 1)) w)
    else
      reservoirLoop g limit ws (i + 1) acc

/-- getRandomWords of the main words lambda: reservoir sampling over the
iteration order of the cached words (an arbitrary list with distinct word
ids, since cachedWords is a map keyed by word). -/
def getRandomWords (g : Nat → Nat) (catalog : List Word) (limit : Nat) :
    List Word :=
  reservoirLoop g limit catalog 0 []

/-- State of Go's global math/rand source: the last seed planted and the
position reached in that seed's stream. -/
structure RngState where
  seed : Nat
  pos : Nat
deriving DecidableEq

/-- getRandomWords as the process executes it: the body begins with
`rand.Seed(time.Now().UnixNano())`, so the incoming source state is
overwritten with a fresh clock seed before any draw; `g` maps a seed and a
draw index to the pseudo-random value. -/
def getRandomWordsWithRng (g : Nat → Nat → Nat) (clock : Nat) (rng : RngState)
    (catalog : List Word) (limit : Nat) : List Word × RngState :=
  let seeded : RngState := { seed := clock, pos := 0 }
  (reservoirLoop (g seeded.seed) limit catalog 0 [],
   { seeded with pos := catalog.length - limit })

/-- Insertion into a list kept ascending by successRatio. -/
def insertByRatio (s : WordStatistics) :
    List WordStatistics → List WordStatistics
  | [] => [s]
  | t :: ts =>
    if s.successRatio ≤ t.successRatio then s :: t :: ts
    else t :: insertByRatio s ts

/-- The ascending-by-successRatio order in which the
userId-successRatio-index returns a user's statistics. -/
def sortByRatio : List WordStatistics → List WordStatistics
  | [] => []
  | s :: ss => insertByRatio s (sortByRatio ss)

/-- Lookup in the cachedWords map, keyed by word id. -/
def lookupWord (catalog : List Word) (w : String) : Option Word :=
  catalog.find? (fun x => x.word == w)

/-- getPoorPerformanceWords: query the statistics index for the user's
records ascending by successRatio with Limit = limit / 2, then map each to
its full Word through the catalog cache, dropping ids no longer cached. -/
def getPoorPerformanceWords (stats : List WordStatistics) (catalog : List Word)
    (userID : String) (limit : Nat) : List Word :=
  let queried :=
    (sortByRatio (stats.filter (fun s => s.userId == userID))).take (limit / 2)
  queried.filterMap (fun s => lookupWord catalog s.word)

/-- The dedup accumulation of getWords: words already in the seenWords set
are skipped, new ones are appended to both the result and the set. -/
def dedupInto (seen : List String) (acc : List Word) :
    List Word → List Word × List String
  | [] => (acc, seen)
  | w :: ws =>
    if w.word ∈ seen then dedupInto seen acc ws
    else dedupInto (seen ++ [w.word]) (acc ++ [w]) ws

/-- getWords of the main words lambda: weak words first (deduplicated),
then, if short of `limit`, a random sample of the missing count
(deduplicated against the words already taken), then truncation. -/
def getWords (g : Nat → Nat) (stats : List WordStatistics)
    (catalog : List Word) (userID : String) (limit : Nat) : List Word :=
  let poorPerformanceWords := getPoorPerformanceWords stats catalog userID limit
  let step2 := dedupInto [] [] poorPerformanceWords
  let allWords :=
    if step2.1.length < limit then
      (dedupInto step2.2 step2.1
        (getRandomWords g catalog (limit - step2.1.length))).1
    else step2.1
  allWords.take limit

/-- The statistics store of the POST path, keyed by (userId, word). -/
def StatsStore : Type := String → String → Option WordStatistics

/-- Effect of one updateWordStatistics call executed alone: the record
under (userId, result.word) is replaced by the read-modify-write result. -/
def applyUpdate (userId : String) (r : WordResults) (st : StatsStore) :
    StatsStore :=
  fun u w =>
    if u = userId ∧ w = r.word then
      some (updateWordStatistics userId r (st userId r.word))
    else st u w

/-- The loop of handleResults: outcomes are applied one at a time in list
order; `fails k` says whether the store errors on the k-th update call, in
which case the handler stops and answers 500, leaving earlier updates in
place; a completed loop answers 200. -/
def handleResultsLoop (fails : Nat → Bool) (userId : String) :
    List WordResults → Nat → StatsStore → StatsStore × Nat
  | [], _, st => (st, 200)
  | r :: rs, k, st =>
    if fails k then (st, 500)
    else handleResultsLoop fails userId rs (k + 1) (applyUpdate userId r st)

/-- Concrete words for the end-to-end scenarios. -/
def wA : Word := { word := "A", correct := "a", incorrect := [] }

def wB : Word := { word := "B", correct := "b", incorrect := [] }

def wC : Word := { word := "C", correct := "c", incorrect := [] }

def wD : Word := { word := "D", correct := "d", incorrect := [] }

def wE : Word := { word := "E", correct := "e", incorrect := [] }

/-- The five-word catalog of the end-to-end scenario. -/
def catalogC3 : List Word := [wA, wB, wC, wD, wE]

/-- The rational 1/5, written by its reduced numerator and denominator so
that it evaluates inside the kernel. -/
def ratioFifth : ℚ := ⟨1, 5, by decide, by decide⟩

/-- The rational 2/5, written by its reduced numerator and denominator. -/
def ratioTwoFifths : ℚ := ⟨2, 5, by decide, by decide⟩

/-- The scenario statistics: word C with ratio 0.2, word D with ratio 0.4. -/
def statsC3 : List WordStatistics :=
  [{ userId := "u", word := "C", attempts := 5, success := 1,
     successRatio := ratioFifth },
   { userId := "u", word := "D", attempts := 5, success := 2,
     successRatio := ratioTwoFifths }]

/-- A two-word catalog and a one-record statistics store used to exhibit an
under-filled selection. -/
def catalogAB : List Word := [wA, wB]

/-- Statistics giving the user a weak record on word A. -/
def statsAB : List WordStatistics :=
  [{ userId := "u", word := "A", attempts := 1, success := 0,
     successRatio := 0 }]

/-- Overwriting one slot with a value not present in the list keeps the
list duplicate-free. -/
theorem nodup_set_of_not_mem {α : Type} :
    ∀ (l : List α) (n : Nat) (a : α), a ∉ l → l.Nodup → (l.set n a).Nodup := by
  intro l
  induction l with
  | nil => intro n a _ _; simp
  | cons x xs ih =>
      intro n a ha hx
      cases n with
      | zero =>
          simp only [List.set]
          refine List.Nodup.cons ?_ (List.Nodup.of_cons hx)
          intro hmem
          exact ha (List.mem_cons_of_mem x hmem)
      | succ n =>
          simp only [List.set]
          rw [List.nodup_cons] at hx ⊢
          refine ⟨?_, ih n a (fun h => ha (List.mem_cons_of_mem x h)) hx.2⟩
          intro hmem
          rcases List.mem_or_eq_of_mem_set hmem with h | h
          · exact hx.1 h
          · exact ha (by simp [h])

/-- The reservoir holds `min (i + remaining) limit` words when it enters
step `i` holding `min i limit` words. -/
theorem reservoirLoop_length (g : Nat → Nat) (limit : Nat) :
    ∀ (ws : List Word) (i : Nat) (acc : List Word),
      acc.length = min i limit →
      (reservoirLoop g limit ws i acc).length = min (i + ws.length) limit := by
  intro ws
  induction ws with
  | nil => intro i acc h; simpa [reservoirLoop] using h
  | cons w ws ih =>
      intro i acc h
      by_cases hi : i < limit
      · rw [reservoirLoop, if_pos hi,
          ih (i + 1) (acc ++ [w]) (by simp [h]; omega)]
        simp only [List.length_cons]
        omega
      · rw [reservoirLoop, if_neg hi]
        by_cases hr : g i % (i + 1) < limit
        · rw [if_pos hr, ih (i + 1) _ (by simp [List.length_set, h]; omega)]
          simp only [List.length_cons]
          omega
        · rw [if_neg hr, ih (i + 1) acc (by simp [h]; omega)]
          simp only [List.length_cons]
          omega

/-- Every word the reservoir loop returns was already in the reservoir or
comes from the remaining input. -/
theorem reservoirLoop_mem (g : Nat → Nat) (limit : Nat) :
    ∀ (ws : List Word) (i : Nat) (acc : List Word) (x : Word),
      x ∈ reservoirLoop g limit ws i acc → x ∈ acc ∨ x ∈ ws := by
  intro ws
  induction ws with
  | nil => intro i acc x hx; exact Or.inl hx
  | cons w ws ih =>
      intro i acc x hx
      by_cases hi : i < limit
      · rw [reservoirLoop, if_pos hi] at hx
        rcases ih (i + 1) (acc ++ [w]) x hx with h | h
        · rcases List.mem_append.mp h with h | h
          · exact Or.inl h
          · exact Or.inr (by simp at h; simp [h])
        · exact Or.inr (List.mem_cons_of_mem w h)
      · rw [reservoirLoop, if_neg hi] at hx
        by_cases hr : g i % (i + 1) < limit
        · rw [if_pos hr] at hx
          rcases ih (i + 1) _ x hx with h | h
          · rcases List.mem_or_eq_of_mem_set h with h | h
            · exact Or.inl h
            · exact Or.inr (by simp [h])
          · exact Or.inr (List.mem_cons_of_mem w h)
        · rw [if_neg hr] at hx
          rcases ih (i + 1) acc x hx with h | h
          · exact Or.inl h
          · exact Or.inr (List.mem_cons_of_mem w h)

/-- The reservoir keeps word ids duplicate-free: entering a step with a
duplicate-free reservoir whose ids are disjoint from the remaining input
(itself duplicate-free) yields a duplicate-free result. -/
theorem reservoirLoop_nodup (g : Nat → Nat) (limit : Nat) :
    ∀ (ws : List Word) (i : Nat) (acc : List Word),
      (acc.map (fun w => w.word)).Nodup →
      (ws.map (fun w => w.word)).Nodup →
      (∀ x ∈ acc, ∀ y ∈ ws, x.word ≠ y.word) →
      ((reservoirLoop g limit ws i acc).map (fun w => w.word)).Nodup := by
  intro ws
  induction ws with
  | nil => intro i acc hacc _ _; exact hacc
  | cons w ws ih =>
      intro i acc hacc hws hdisj
      rw [List.map_cons, List.nodup_cons] at hws
      have hwacc : w.word ∉ acc.map (fun x => x.word) := by
        intro hmem
        rcases List.mem_map.mp hmem with ⟨x, hx, hxw⟩
        exact hdisj x hx w (List.mem_cons_self w ws) hxw
      by_cases hi : i < limit
      · rw [reservoirLoop, if_pos hi]
        refine ih (i + 1) (acc ++ [w]) ?_ hws.2 ?_
        · rw [List.map_append, List.nodup_append]
          exact ⟨hacc, by simp, by simpa using fun hmem => hwacc hmem⟩
        · intro x hx y hy
          rcases List.mem_append.mp hx with h | h
          · exact hdisj x h y (List.mem_cons_of_mem w hy)
          · simp only [List.mem_singleton] at h
            subst h
            intro hxy
            exact hws.1 (hxy ▸ List.mem_map_of_mem (fun z => z.word) hy)
      · rw [reservoirLoop, if_neg hi]
        by_cases hr : g i % (i + 1) < limit
        · rw [if_pos hr]
          refine ih (i + 1) _ ?_ hws.2 ?_
          · rw [List.map_set]
            exact nodup_set_of_not_mem _ _ _ hwacc hacc
          · intro x hx y hy
            rcases List.mem_or_eq_of_mem_set hx with h | h
            · exact hdisj x h y (List.mem_cons_of_mem w hy)
            · subst h
              intro hxy
              exact hws.1 (hxy ▸ List.mem_map_of_mem (fun z => z.word) hy)
        · rw [if_neg hr]
          exact ih (i + 1) acc hacc hws.2
            (fun x hx y hy => hdisj x hx y (List.mem_cons_of_mem w hy))

/-- C4. For every random stream and every catalog with distinct word ids,
getRandomWords returns exactly min n N words (N the catalog size), with
pairwise distinct ids, each taken from the catalog. -/
theorem getRandomWords_spec (g : Nat → Nat) (catalog : List Word) (n : Nat)
    (hn : 1 ≤ n) (hcat : (catalog.map (fun w => w.word)).Nodup) :
    (getRandomWords g catalog n).length = min n catalog.length ∧
    ((getRandomWords g catalog n).map (fun w => w.word)).Nodup ∧
    ∀ w ∈ getRandomWords g catalog n, w ∈ catalog := by
  refine ⟨?_, ?_, ?_⟩
  · have h := reservoirLoop_length g n catalog 0 [] (by simp)
    rw [getRandomWords, h, Nat.zero_add, Nat.min_comm]
  · exact reservoirLoop_nodup g n catalog 0 [] (by simp) hcat (by simp)
  · intro w hw
    rcases reservoirLoop_mem g n catalog 0 [] w hw with h | h
    · simp at h
    · exact h

/-- Witness for C4 on a three-word catalog with a request for two. -/
theorem getRandomWords_spec_witness :
    (getRandomWords (fun _ => 0) [wA, wB, wC] 2).length =
      min 2 ([wA, wB, wC] : List Word).length ∧
    ((getRandomWords (fun _ => 0) [wA, wB, wC] 2).map
      (fun w => w.word)).Nodup ∧
    ∀ w ∈ getRandomWords (fun _ => 0) [wA, wB, wC] 2, w ∈ [wA, wB, wC] :=
  getRandomWords_spec (fun _ => 0) [wA, wB, wC] 2 (by decide) (by decide)

/-- C9. getRandomWords reseeds the process random source on every call:
the result and the post-call source state are independent of the incoming
source state, being functions of the entry clock alone — so two calls whose
clock reads coincide repeat the same draws instead of continuing one
stream. -/
theorem getRandomWords_reseeds_every_call (g : Nat → Nat → Nat) (clock : Nat)
    (rng rng2 : RngState) (catalog : List Word) (limit : Nat) :
    getRandomWordsWithRng g clock rng catalog limit =
      getRandomWordsWithRng g clock rng2 catalog limit := rfl

/-- The dedup accumulation only ever appends: the incoming accumulator is a
prefix of the result. -/
theorem dedupInto_prefix :
    ∀ (ws : List Word) (seen : List String) (acc : List Word),
      ∃ rest, (dedupInto seen acc ws).1 = acc ++ rest := by
  intro ws
  induction ws with
  | nil => intro seen acc; exact ⟨[], by simp [dedupInto]⟩
  | cons w ws ih =>
      intro seen acc
      rw [dedupInto]
      by_cases hw : w.word ∈ seen
      · rw [if_pos hw]; exact ih seen acc
      · rw [if_neg hw]
        obtain ⟨rest, hrest⟩ := ih (seen ++ [w.word]) (acc ++ [w])
        exact ⟨w :: rest, by simp [hrest]⟩

/-- Invariant of the dedup accumulation: if the accumulator has distinct
ids, all recorded in the seen set, then so does the result. -/
theorem dedupInto_invariant :
    ∀ (ws : List Word) (seen : List String) (acc : List Word),
      (acc.map (fun w => w.word)).Nodup →
      (∀ s ∈ acc.map (fun w => w.word), s ∈ seen) →
      ((dedupInto seen acc ws).1.map (fun w => w.word)).Nodup ∧
      (∀ s ∈ (dedupInto seen acc ws).1.map (fun w => w.word),
        s ∈ (dedupInto seen acc ws).2) := by
  intro ws
  induction ws with
  | nil => intro seen acc hacc hsub; exact ⟨hacc, hsub⟩
  | cons w ws ih =>
      intro seen acc hacc hsub
      rw [dedupInto]
      by_cases hw : w.word ∈ seen
      · rw [if_pos hw]; exact ih seen acc hacc hsub
      · rw [if_neg hw]
        refine ih (seen ++ [w.word]) (acc ++ [w]) ?_ ?_
        · rw [List.map_append, List.nodup_append]
          refine ⟨hacc, by simp, ?_⟩
          simp only [List.map_cons, List.map_nil, List.disjoint_singleton]
          simpa using fun hmem => hw (hsub w.word hmem)
        · intro s hs
          rw [List.map_append, List.mem_append] at hs
          rcases hs with h | h
          · exact List.mem_append_left _ (hsub s h)
          · simp only [List.map_cons, List.map_nil,
              List.mem_singleton] at h
            simp [h]

/-- When nothing of the input is seen yet and the input ids are distinct,
the dedup accumulation appends the whole input unchanged. -/
theorem dedupInto_all_new :
    ∀ (ws : List Word) (seen : List String) (acc : List Word),
      (∀ y ∈ ws, y.word ∉ seen) →
      (ws.map (fun w => w.word)).Nodup →
      (dedupInto seen acc ws).1 = acc ++ ws := by
  intro ws
  induction ws with
  | nil => intro seen acc _ _; simp [dedupInto]
  | cons w ws ih =>
      intro seen acc hnew hws
      rw [List.map_cons, List.nodup_cons] at hws
      rw [dedupInto, if_neg (hnew w (List.mem_cons_self w ws))]
      rw [ih (seen ++ [w.word]) (acc ++ [w]) ?_ hws.2]
      · simp
      · intro y hy
        rw [List.mem_append]
        rintro (h | h)
        · exact hnew y (List.mem_cons_of_mem w hy) h
        · simp only [List.mem_singleton] at h
          exact hws.1 (h ▸ List.mem_map_of_mem (fun z => z.word) hy)

/-- C7. For every random stream, statistics state and requested count, the
selector returns at most `limit` words and never repeats a word id: in
particular a weak word redrawn by the random fill is skipped, not listed
twice. -/
theorem getWords_bounded_nodup (g : Nat → Nat) (stats : List WordStatistics)
    (catalog : List Word) (u : String) (limit : Nat) :
    (getWords g stats catalog u limit).length ≤ limit ∧
    ((getWords g stats catalog u limit).map (fun w => w.word)).Nodup := by
  constructor
  · rw [getWords]
    simp only [List.length_take]
    omega
  · rw [getWords]
    have hstep2 := dedupInto_invariant
      (getPoorPerformanceWords stats catalog u limit) [] []
      (by simp) (by simp)
    set step2 := dedupInto [] [] (getPoorPerformanceWords stats catalog u limit)
      with hstep2def
    have hfinal :
        (((if step2.1.length < limit then
            (dedupInto step2.2 step2.1
              (getRandomWords g catalog (limit - step2.1.length))).1
          else step2.1)).map (fun w => w.word)).Nodup := by
      by_cases hlt : step2.1.length < limit
      · rw [if_pos hlt]
        exact (dedupInto_invariant _ step2.2 step2.1 hstep2.1 hstep2.2).1
      · rw [if_neg hlt]
        exact hstep2.1
    have hsub : List.Sublist
        ((if step2.1.length < limit then
            (dedupInto step2.2 step2.1
              (getRandomWords g catalog (limit - step2.1.length))).1
          else step2.1).take limit)
        (if step2.1.length < limit then
            (dedupInto step2.2 step2.1
              (getRandomWords g catalog (limit - step2.1.length))).1
          else step2.1) := List.take_sublist _ _
    exact hfinal.sublist (hsub.map (fun w => w.word))

/-- C2 counterexample. Catalog {A, B}, the user weak on A, request 2: when
the single random fill draw lands on A again (draw stream constantly 1), the
selector returns only [A] — fewer than min 2 2, because the sampler is not
re-invoked to replace the duplicate it drew. -/
theorem getWords_short_counterexample :
    getWords (fun _ => 1) statsAB catalogAB "u" 2 = [wA] ∧
    (getWords (fun _ => 1) statsAB catalogAB "u" 2).length ≠
      min 2 catalogAB.length := by
  constructor
  · decide
  · decide

/-- C2 amended. The selector always returns at most the requested count
(see the C7 theorem for the bound and distinctness); it returns exactly
min (count, catalog size) whenever the user has no statistics records, the
state in which the Performance Query contributes nothing. -/
theorem getWords_fills_for_fresh_user (g : Nat → Nat)
    (stats : List WordStatistics) (catalog : List Word) (u : String)
    (limit : Nat)
    (hstats : stats.filter (fun s => s.userId == u) = [])
    (hcat : (catalog.map (fun w => w.word)).Nodup) :
    (getWords g stats catalog u limit).length = min limit catalog.length := by
  have hpoor : getPoorPerformanceWords stats catalog u limit = [] := by
    rw [getPoorPerformanceWords, hstats]
    simp [sortByRatio]
  simp only [getWords, hpoor]
  simp only [dedupInto, List.length_nil, Nat.sub_zero]
  by_cases hlim : 0 < limit
  · rw [if_pos hlim]
    have hlen : (getRandomWords g catalog limit).length =
        min limit catalog.length := by
      have h := reservoirLoop_length g limit catalog 0 [] (by simp)
      rw [getRandomWords, h, Nat.zero_add, Nat.min_comm]
    have hnodup : ((getRandomWords g catalog limit).map
        (fun w => w.word)).Nodup :=
      reservoirLoop_nodup g limit catalog 0 [] (by simp) hcat (by simp)
    rw [dedupInto_all_new (getRandomWords g catalog limit) [] []
      (by simp) hnodup]
    simp only [List.nil_append, List.length_take]
    omega
  · rw [if_neg hlim]
    simp only [List.take_nil, List.length_nil]
    omega

/-- Witness for C2 amended: a fresh user against a three-word catalog with
a request for two receives exactly two words. -/
theorem getWords_fills_for_fresh_user_witness :
    (getWords (fun _ => 0) [] [wA, wB, wC] "u" 2).length =
      min 2 ([wA, wB, wC] : List Word).length :=
  getWords_fills_for_fresh_user (fun _ => 0) [] [wA, wB, wC] "u" 2
    rfl (by decide)

/-- C3 counterexample. With catalog {A,B,C,D,E} and the user weak on C
(ratio 0.2) and D (ratio 0.4), a request for 3 returns [C, A, B] when every
reservoir draw is 2: the Performance Query is capped at 3 / 2 = 1 record,
so D is not guaranteed a place, contradicting the claimed [C, D, x]. -/
theorem getWords_scenario_counterexample :
    getWords (fun _ => 2) statsC3 catalogC3 "u" 3 = [wC, wA, wB] ∧
    wA ≠ wD := by
  constructor
  · decide
  · decide

/-- C3 amended. For every random stream, the scenario selection starts with
C, the single weakest word the capped Performance Query returns; the other
slots are filled by the random sampler, with no guaranteed position for D. -/
theorem getWords_scenario_weakest_first (g : Nat → Nat) :
    ∃ rest, getWords g statsC3 catalogC3 "u" 3 = wC :: rest := by
  have hred : getWords g statsC3 catalogC3 "u" 3
      = ((dedupInto ["C"] [wC] (getRandomWords g catalogC3 2)).1).take 3 := rfl
  obtain ⟨rest, hrest⟩ :=
    dedupInto_prefix (getRandomWords g catalogC3 2) ["C"] [wC]
  rw [hred, hrest]
  exact ⟨rest.take 2, by simp⟩

/-- Generalization of the handleResults loop over its running index: when
the store first fails at relative position k of the remaining outcomes, the
loop returns status 500 with exactly the first k updates applied. -/
theorem handleResultsLoop_first_failure (fails : Nat → Bool) (u : String) :
    ∀ (outs : List WordResults) (j k : Nat) (st : StatsStore),
      k < outs.length →
      (∀ i, i < k → fails (j + i) = false) →
      fails (j + k) = true →
      handleResultsLoop fails u outs j st =
        ((outs.take k).foldl (fun s r => applyUpdate u r s) st, 500) := by
  intro outs
  induction outs with
  | nil => intro j k st hk _ _; exact absurd hk (by simp)
  | cons r rs ih =>
      intro j k st hk hbefore hfail
      cases k with
      | zero =>
          rw [handleResultsLoop, if_pos (by simpa using hfail)]
          simp
      | succ k =>
          have hfirst : fails j = false := by
            have := hbefore 0 (Nat.succ_pos k)
            simpa using this
          rw [handleResultsLoop, if_neg (by simp [hfirst])]
          rw [ih (j + 1) k (applyUpdate u r st) (by simpa using hk)
            ?_ ?_]
          · simp
          · intro i hi
            have := hbefore (i + 1) (by omega)
            have harith : j + (i + 1) = j + 1 + i := by omega
            rwa [harith] at this
          · have harith : j + (k + 1) = j + 1 + k := by omega
            rwa [harith] at hfail

/-- C10. SubmitResults is not atomic across the outcome list: outcomes are
applied in list order, and when the store update for the (k+1)-th outcome
fails, the first k updates remain applied, the later outcomes are not
attempted, and the handler answers 500. -/
theorem handleResults_partial_on_failure (fails : Nat → Bool) (u : String)
    (outs : List WordResults) (k : Nat) (st : StatsStore)
    (hk : k < outs.length)
    (hbefore : ∀ i, i < k → fails i = false)
    (hfail : fails k = true) :
    handleResultsLoop fails u outs 0 st =
      ((outs.take k).foldl (fun s r => applyUpdate u r s) st, 500) :=
  handleResultsLoop_first_failure fails u outs 0 k st hk
    (by simpa using hbefore) (by simpa using hfail)

/-- Witness for C10: three outcomes, the store failing on the second update
call; the first update persists and the handler answers 500. -/
theorem handleResults_partial_on_failure_witness :
    handleResultsLoop (fun i => i == 1) "u"
        [{ word := "A", isCorrect := true },
         { word := "B", isCorrect := false },
         { word := "C", isCorrect := true }] 0 (fun _ _ => none) =
      ((([{ word := "A", isCorrect := true },
          { word := "B", isCorrect := false },
          { word := "C", isCorrect := true }] : List WordResults).take 1).foldl
        (fun s r => applyUpdate "u" r s) (fun _ _ => none), 500) :=
  handleResults_partial_on_failure (fun i => i == 1) "u"
    [{ word := "A", isCorrect := true },
     { word := "B", isCorrect := false },
     { word := "C", isCorrect := true }] 1 (fun _ _ => none)
    (by decide) (by decide) (by decide)
